import Mathlib

/-!
Shallow embedding of `src/hypergraph_motifs.py` (hypergraph motif counting).

Vertices are modelled as natural numbers.  Python `frozenset`s of vertices
become `Finset ℕ`, the ordered edge list becomes `List (Finset ℕ)`, and the
count dictionaries (`defaultdict(int)` with insertion-order keys) become
association lists `List (String × ℕ)` updated by `bump`.

Python iterates over unordered sets in an unspecified (deterministic per run)
order; wherever the source iterates over a set we fix the ascending order
(resp. descending where the source pops from the end of a list built from a
set).  All statements proved below are insensitive to that choice, and the
concrete counterexamples use single-digit vertices where the source's
string-keyed sort coincides with the numeric order.
-/

deriving instance DecidableEq for Except

namespace HypergraphMotifs

/-- The ascending listing of a finite set of naturals (Python's `sorted` on a
set), computed by insertion sort on any representative list. -/
def finSorted (s : Finset ℕ) : List ℕ :=
  Quot.liftOn s.val (fun l => l.insertionSort (· ≤ ·)) fun _ _ h =>
    List.eq_of_perm_of_sorted
      ((List.perm_insertionSort _ _).trans (h.trans (List.perm_insertionSort _ _).symm))
      (List.sorted_insertionSort _ _) (List.sorted_insertionSort _ _)

/-- All insertions of `a` into one list. -/
def insertsOf (a : ℕ) : List ℕ → List (List ℕ)
  | [] => [[a]]
  | b :: bs => (a :: b :: bs) :: (insertsOf a bs).map (b :: ·)

/-- All permutations of a list (`itertools.permutations` enumerates exactly
the orderings of its input; the enumeration order is irrelevant because the
caller takes a lexicographic minimum over them). -/
def permsOf : List ℕ → List (List ℕ)
  | [] => [[]]
  | a :: as => (permsOf as).flatMap (insertsOf a)

/-- Python string comparison of the decimal representations of two naturals
(`sorted(..., key=lambda x: str(x))` sorts by this key).  Strings compare
lexicographically by code point, i.e. by their character lists. -/
def strLe (a b : ℕ) : Prop := (Nat.repr a).data ≤ (Nat.repr b).data

instance : DecidableRel strLe := fun a b =>
  inferInstanceAs (Decidable ((Nat.repr a).data ≤ (Nat.repr b).data))

instance : IsTotal ℕ strLe := ⟨fun a b => le_total (Nat.repr a).data (Nat.repr b).data⟩

instance : IsTrans ℕ strLe := ⟨fun _ _ _ h h2 => le_trans h h2⟩

/-- Python `sorted(s, key=str)` for a set of naturals: list the elements in
ascending numeric order, then stably re-sort by the string key. -/
def strSorted (s : Finset ℕ) : List ℕ :=
  (finSorted s).insertionSort strLe

/-- Listing of a Python set of naturals in descending numeric order; used to
model `list(ext)` followed by `.pop()` (pop from the end) as popping the head
of this list. -/
def descList (s : Finset ℕ) : List ℕ :=
  (finSorted s).reverse

/-- Python `json.dumps` of a tuple of tuples of ints, e.g. `"[[0, 1, 2], [1, 2]]"`. -/
def jsonDumps (l : List (List ℕ)) : String :=
  "[" ++ String.intercalate ", " (l.map fun e =>
    "[" ++ String.intercalate ", " (e.map fun n => Nat.repr n) ++ "]") ++ "]"

/-- Python `M[key] += 1` on a `defaultdict(int)`: increment an existing key in place,
or append the key with value 1 (Python dicts keep insertion order). -/
def bump (M : List (String × ℕ)) (key : String) : List (String × ℕ) :=
  match M with
  | [] => [(key, 1)]
  | (k, v) :: rest => if k = key then (k, v + 1) :: rest else (k, v) :: bump rest key

/-- Python `dict` equality: two dicts are `==` iff they contain the same
key/value pairs, irrespective of insertion order. -/
def mapsEqual (M N : List (String × ℕ)) : Prop :=
  ∀ s : String, M.lookup s = N.lookup s

/-- Sum of the values of a count dictionary. -/
def sumValues (M : List (String × ℕ)) : ℕ :=
  (M.map Prod.snd).sum

/-- The `class Hypergraph`: an ordered list of hyperedges plus a vertex set. -/
structure Hypergraph where
  edges : List (Finset ℕ)
  vertices : Finset ℕ
deriving DecidableEq

/-- Method `Hypergraph.add_edge`: drop edges that are empty after deduplication,
otherwise append the edge and union its vertices into the vertex set. -/
def Hypergraph.add_edge (H : Hypergraph) (e : Finset ℕ) : Hypergraph :=
  if e = ∅ then H else ⟨H.edges ++ [e], H.vertices ∪ e⟩

/-- Constructor `Hypergraph.__init__`: fold `add_edge` over an initial edge sequence. -/
def ofEdgeList (es : List (Finset ℕ)) : Hypergraph :=
  es.foldl Hypergraph.add_edge ⟨[], ∅⟩

/-- Method `Hypergraph.induced_subhypergraph`: keep each edge's intersection with the
subset when non-empty, and build a fresh hypergraph from the trimmed edges. -/
def Hypergraph.induced_subhypergraph (H : Hypergraph) (V : Finset ℕ) : Hypergraph :=
  ofEdgeList (H.edges.filterMap fun e =>
    let inter := e ∩ V
    if inter = ∅ then none else some inter)

/-- The projection graph: a vertex set (the dict's keys) together with a
neighbor-set function (the dict's values). -/
structure PyGraph where
  verts : Finset ℕ
  nbrs : ℕ → Finset ℕ

/-- Method `Hypergraph.projection_2_section`: two vertices are adjacent iff they
co-occur in some hyperedge (for every edge, all its vertex pairs). -/
def Hypergraph.projection_2_section (H : Hypergraph) : PyGraph :=
  ⟨H.vertices, fun v =>
    H.edges.foldr (fun e acc => if v ∈ e then acc ∪ e.erase v else acc) ∅⟩

/-- The while loop of the recursive worker of
`esu_enumerate_connected_subgraphs`: pop one extension vertex `w` (the source
pops from the end of the list built from the extension set), recurse through
`f` on the grown subgraph with the new extension set, then continue with the
remaining extension.  `idx` is the position in the string-sorted vertex
list. -/
def esuLoop (G : PyGraph) (idx : ℕ → ℕ) (start : ℕ)
    (f : List ℕ → List ℕ → List (Finset ℕ)) (sub : List ℕ) :
    List ℕ → List (Finset ℕ)
  | [] => []
  | w :: rest =>
    let newSub := sub ++ [w]
    let newExt := descList (rest.toFinset ∪
      (G.nbrs w).filter fun nb => nb ∉ newSub ∧ idx start < idx nb)
    f newSub newExt ++ esuLoop G idx start f sub rest

/-- The ESU recursion, structured by the remaining depth `k - len(subgraph)`
(an invariant of every reachable call).  At depth 0, i.e. `k ≤ len(subgraph)`,
the source yields the subgraph when its size is exactly `k` and otherwise its
subtree yields nothing (the source can only yield at exact size `k`). -/
def esuRec (G : PyGraph) (k : ℕ) (idx : ℕ → ℕ) (start : ℕ) :
    ℕ → List ℕ → List ℕ → List (Finset ℕ)
  | 0, sub, _ => if sub.length = k then [sub.toFinset] else []
  | d + 1, sub, ext => esuLoop G idx start (esuRec G k idx start d) sub ext

/-- Function `esu_enumerate_connected_subgraphs`: for each start vertex (in the
deterministic string order), grow subgraphs whose extension sets only contain
vertices strictly after the start. -/
def esu_enumerate_connected_subgraphs (G : PyGraph) (k : ℕ) : List (Finset ℕ) :=
  let vertices := strSorted G.verts
  let idx := fun v => vertices.indexOf v
  vertices.flatMap fun v =>
    esuRec G k idx v (k - 1) [v]
      (descList ((G.nbrs v).filter fun nb => idx v < idx nb))

/-- One round of the BFS of `is_connected_hypergraph`: absorb every hyperedge
that meets the visited set. -/
def hyperStep (edges : List (Finset ℕ)) (vis : Finset ℕ) : Finset ℕ :=
  edges.foldr (fun e acc => if (e ∩ vis).Nonempty then acc ∪ e else acc) vis

/-- Function `is_connected_hypergraph`: breadth-first closure from an arbitrary start
vertex through hyperedge incidence; connected iff every vertex is reached.
The BFS computes the full incidence closure of its start; iterating
`hyperStep` `|vertices|` times yields the same verdict (the closure grows by
at least one vertex per round until it is closed). -/
def is_connected_hypergraph (H : Hypergraph) : Bool :=
  match finSorted H.vertices with
  | [] => true
  | start :: _ =>
    decide ((hyperStep H.edges)^[H.vertices.card] {start} = H.vertices)

/-- Function `canonical_form_hypergraph`: index the string-sorted vertices by 0..k-1,
rewrite each edge as its sorted index tuple, and take the lexicographically
smallest sorted edge collection over all permutations of the indices,
serialized with `json.dumps`.  The empty hypergraph yields `"()"`. -/
def canonical_form_hypergraph (H : Hypergraph) : String :=
  let V := strSorted H.vertices
  let k := V.length
  if k = 0 then "()"
  else
    let edges := H.edges.map fun e =>
      ((finSorted e).map fun x => V.indexOf x).insertionSort (· ≤ ·)
    let best := (permsOf (List.range k)).foldl
      (fun best perm =>
        let mapped := edges.map fun e =>
          (e.map fun i => perm.getD i 0).insertionSort (· ≤ ·)
        let ms := mapped.insertionSort (· ≤ ·)
        match best with
        | none => some ms
        | some b => if ms < b then some ms else some b)
      none
    match best with
    | some b => jsonDumps b
    | none => jsonDumps []

/-- Function `baseline_count`: reject `k ∉ {3,4}`, otherwise ESU-enumerate connected
`k`-subsets of the projection, filter by hypergraph connectivity of the
induced sub-hypergraph, canonicalize and count. -/
def baseline_count (H : Hypergraph) (k : ℕ) : Except String (List (String × ℕ)) :=
  if k = 3 ∨ k = 4 then
    .ok ((esu_enumerate_connected_subgraphs H.projection_2_section k).foldl
      (fun M Vstar =>
        let candidate := H.induced_subhypergraph Vstar
        if is_connected_hypergraph candidate then
          bump M (canonical_form_hypergraph candidate)
        else M)
      [])
  else .error "k must be 3 or 4"

/-- One step of phase 1 of `efficient_count_order3` (the body of
`for e in H.edges` at lines 208-215): a size-3 hyperedge is counted and its
vertex set marked visited, with no check against the visited set. -/
def eff3_direct_step (H : Hypergraph)
    (acc : List (String × ℕ) × Finset (Finset ℕ)) (e : Finset ℕ) :
    List (String × ℕ) × Finset (Finset ℕ) :=
  if e.card = 3 then
    (bump acc.1 (canonical_form_hypergraph (H.induced_subhypergraph e)),
     insert e acc.2)
  else acc

/-- Phase 1 of `efficient_count_order3`: count every size-3 hyperedge
occurrence directly and mark its vertex set visited. -/
def eff3_direct_phase (H : Hypergraph) : List (String × ℕ) × Finset (Finset ℕ) :=
  H.edges.foldl (eff3_direct_step H) ([], ∅)

/-- Function `efficient_count_order3`: the direct size-3 phase followed by ESU
enumeration over the original projection, skipping visited triples. -/
def efficient_count_order3 (H : Hypergraph) : List (String × ℕ) :=
  let s1 := eff3_direct_phase H
  ((esu_enumerate_connected_subgraphs H.projection_2_section 3).foldl
    (fun acc Vstar =>
      if Vstar ∈ acc.2 then acc
      else
        let candidate := H.induced_subhypergraph Vstar
        if is_connected_hypergraph candidate then
          (bump acc.1 (canonical_form_hypergraph candidate), insert Vstar acc.2)
        else acc)
    s1).1

/-- One step of phase 1 of `efficient_count_order4` (the body of
`for e in H.edges` at lines 253-259): a size-4 hyperedge is counted and its
vertex set marked visited, with no check against the visited set. -/
def eff4_direct_step (H : Hypergraph)
    (acc : List (String × ℕ) × Finset (Finset ℕ)) (e : Finset ℕ) :
    List (String × ℕ) × Finset (Finset ℕ) :=
  if e.card = 4 then
    (bump acc.1 (canonical_form_hypergraph (H.induced_subhypergraph e)),
     insert e acc.2)
  else acc

/-- Phase 1 of `efficient_count_order4`: count every size-4 hyperedge
occurrence directly and mark its vertex set visited. -/
def eff4_direct_phase (H : Hypergraph) : List (String × ℕ) × Finset (Finset ℕ) :=
  H.edges.foldl (eff4_direct_step H) ([], ∅)

/-- Phase 2 of `efficient_count_order4`: drop size-4 edges, then for every
size-3 edge and every *other* edge (object identity modelled by list
position) meeting it with a 4-vertex union, count the unvisited unions.
Phase 3: ESU enumeration over the original projection for unvisited 4-sets. -/
def efficient_count_order4 (H : Hypergraph) : List (String × ℕ) :=
  let s1 := eff4_direct_phase H
  let edges_no4 := H.edges.filter fun e => ¬ e.card = 4
  let H_no4 := ofEdgeList edges_no4
  let en := H_no4.edges.enum
  let s2 := (en.filter fun p => p.2.card = 3).foldl
    (fun acc p =>
      en.foldl
        (fun acc q =>
          if q.1 = p.1 then acc
          else if q.2 ∩ p.2 = ∅ then acc
          else
            let union := p.2 ∪ q.2
            if union.card = 4 then
              if union ∈ acc.2 then acc
              else
                let candidate := H.induced_subhypergraph union
                if is_connected_hypergraph candidate then
                  (bump acc.1 (canonical_form_hypergraph candidate),
                   insert union acc.2)
                else acc
            else acc)
        acc)
    s1
  ((esu_enumerate_connected_subgraphs H.projection_2_section 4).foldl
    (fun acc Vstar =>
      if Vstar ∈ acc.2 then acc
      else
        let candidate := H.induced_subhypergraph Vstar
        if is_connected_hypergraph candidate then
          (bump acc.1 (canonical_form_hypergraph candidate), insert Vstar acc.2)
        else acc)
    s2).1

/-- Spec-side definition (from the spec's words, for comparison with the
code): a vertex subset is connected in the projection of `H` when the
incidence closure of one of its vertices inside the subset, through the
projection adjacency, covers the whole subset. -/
def spec_proj_connected (H : Hypergraph) (V : Finset ℕ) : Bool :=
  match finSorted V with
  | [] => true
  | v :: _ =>
    decide
      ((fun vis => vis ∪ vis.biUnion fun u =>
          H.projection_2_section.nbrs u ∩ V)^[V.card] {v} = V)

/-- Spec-side definition (from the spec's count-conservation sentence): the
distinct vertex sets of size `k` that are connected in the projection of `H`
and whose induced sub-hypergraph passes the hypergraph-connectivity check. -/
def spec_qualifying_sets (H : Hypergraph) (k : ℕ) : Finset (Finset ℕ) :=
  (H.vertices.powersetCard k).filter fun V =>
    spec_proj_connected H V = true ∧
    is_connected_hypergraph (H.induced_subhypergraph V) = true

/-- The hypergraph with exactly one hyperedge, on the three vertices 0,1,2. -/
def Hone3 : Hypergraph := ofEdgeList [({0, 1, 2} : Finset ℕ)]

/-- The hypergraph with exactly one hyperedge, on the four vertices 0,1,2,3. -/
def Hone4 : Hypergraph := ofEdgeList [({0, 1, 2, 3} : Finset ℕ)]

/-- The hypergraph with two hyperedges of identical vertex content 0,1,2. -/
def Hdup3 : Hypergraph := ofEdgeList [({0, 1, 2} : Finset ℕ), {0, 1, 2}]

/-- The union of a list of hyperedges. -/
def unionEdges (l : List (Finset ℕ)) : Finset ℕ := l.foldr (· ∪ ·) ∅

/-- The invariant maintained by the `Hypergraph` constructors: no hyperedge
is empty and the vertex set is exactly the union of the hyperedges. -/
def Wf (H : Hypergraph) : Prop :=
  (∀ e ∈ H.edges, e ≠ ∅) ∧ H.vertices = unionEdges H.edges

instance : DecidablePred Wf := fun _H =>
  inferInstanceAs (Decidable (_ ∧ _))

/-- The `perm[i]` lookup for the canonical-labeling loop (edge entries are always
valid indices, so the default is never observed on well-formed input). -/
def pgetD (p : List ℕ) (i : ℕ) : ℕ := p.getD i 0

/-- The candidate edge collection of the canonical-labeling loop for one
relabeling function: relabel each edge, sort it, then sort the collection. -/
def applyFun (g : ℕ → ℕ) (E : List (List ℕ)) : List (List ℕ) :=
  (E.map fun e => (e.map g).insertionSort (· ≤ ·)).insertionSort (· ≤ ·)

/-- All candidate collections considered by the canonical-labeling loop. -/
def cands (k : ℕ) (E : List (List ℕ)) : List (List (List ℕ)) :=
  (permsOf (List.range k)).map fun p => applyFun (pgetD p) E

/-- The running lexicographic minimum of the canonical-labeling loop. -/
def bestFold (c : List (List (List ℕ))) : Option (List (List ℕ)) :=
  c.foldl
    (fun b x =>
      match b with
      | none => some x
      | some bb => if x < bb then some x else some bb)
    none

/-- Folded minimum with a seed. -/
def foldMin (b : List (List ℕ)) (c : List (List (List ℕ))) : List (List ℕ) :=
  c.foldl (fun bb y => if y < bb then y else bb) b

/-- The hyperedges of `H` rewritten as sorted index tuples over the
string-sorted vertex listing (the input of the canonical-labeling loop). -/
def indexEdges (H : Hypergraph) : List (List ℕ) :=
  H.edges.map fun e =>
    ((finSorted e).map fun x => (strSorted H.vertices).indexOf x).insertionSort (· ≤ ·)

/-- The hypergraph obtained by relabeling every vertex of `H` through `σ`
(the spec's relabeled hypergraph, rebuilt through the public constructor). -/
def relabel (H : Hypergraph) (σ : ℕ → ℕ) : Hypergraph :=
  ofEdgeList (H.edges.map (Finset.image σ))

/-- The index permutation induced by a relabeling: position `i` of the
original vertex listing is sent to the position of its image in the listing
of the image vertex set. -/
def tauList (H : Hypergraph) (σ : ℕ → ℕ) : List ℕ :=
  (strSorted H.vertices).map fun x =>
    (strSorted (H.vertices.image σ)).indexOf (σ x)

/-- Insertion sort by `≤` is invariant under permutation of its input: both
results are sorted listings of the same multiset. -/
theorem insertionSort_perm_eq {α : Type} [LinearOrder α] {l l' : List α}
    (h : l.Perm l') :
    l.insertionSort (· ≤ ·) = l'.insertionSort (· ≤ ·) :=
  List.eq_of_perm_of_sorted
    ((List.perm_insertionSort _ l).trans (h.trans (List.perm_insertionSort _ l').symm))
    (List.sorted_insertionSort _ l) (List.sorted_insertionSort _ l')

/-- C1: refuted on the code.  On the hypergraph with a single size-3
hyperedge, `baseline_count(H, 3)` counts the motif twice (the ESU enumerator
emits the triple twice), while `efficient_count_order3(H)` counts it once,
so the two mappings are not equal. -/
theorem efficient3_disagrees_with_baseline_on_single_triangle :
    baseline_count Hone3 3 = Except.ok [("[[0, 1, 2]]", 2)] ∧
    efficient_count_order3 Hone3 = [("[[0, 1, 2]]", 1)] ∧
    ¬ mapsEqual [("[[0, 1, 2]]", 1)] [("[[0, 1, 2]]", 2)] := by
  refine ⟨by decide, by decide, fun h => ?_⟩
  have h12 := h "[[0, 1, 2]]"
  simp [List.lookup] at h12

/-- C2: refuted on the code.  On the hypergraph with a single size-4
hyperedge, `baseline_count(H, 4)` counts the motif six times (the ESU
enumerator emits the quadruple six times), while `efficient_count_order4(H)`
counts it once. -/
theorem efficient4_disagrees_with_baseline_on_single_quad :
    baseline_count Hone4 4 = Except.ok [("[[0, 1, 2, 3]]", 6)] ∧
    efficient_count_order4 Hone4 = [("[[0, 1, 2, 3]]", 1)] ∧
    ¬ mapsEqual [("[[0, 1, 2, 3]]", 1)] [("[[0, 1, 2, 3]]", 6)] := by
  refine ⟨by decide, by decide, fun h => ?_⟩
  have h13 := h "[[0, 1, 2, 3]]"
  simp [List.lookup] at h13

/-- C3: refuted on the code.  On the triangle graph (the projection of a
single size-3 hyperedge) the enumerator emits the unique connected 3-subset
twice instead of exactly once. -/
theorem esu_emits_duplicate_on_triangle :
    esu_enumerate_connected_subgraphs Hone3.projection_2_section 3 =
      [({0, 1, 2} : Finset ℕ), {0, 1, 2}] ∧
    (esu_enumerate_connected_subgraphs Hone3.projection_2_section 3).count
      ({0, 1, 2} : Finset ℕ) = 2 := by
  constructor
  · decide
  · decide

/-- C4: refuted on the code.  On the hypergraph with a single size-3
hyperedge there is exactly one qualifying 3-vertex set, but the values of
`baseline_count(H, 3)` sum to 2. -/
theorem baseline_sum_exceeds_qualifying_sets_on_single_triangle :
    baseline_count Hone3 3 = Except.ok [("[[0, 1, 2]]", 2)] ∧
    sumValues [("[[0, 1, 2]]", 2)] = 2 ∧
    (spec_qualifying_sets Hone3 3).card = 1 := by
  refine ⟨by decide, by decide, by decide⟩

/-- C5: refuted on the code.  On the hypergraph whose edge list is the single
size-3 hyperedge on 0,1,2, `baseline_count(H, 3)` does return a single key,
the canonical form of that hyperedge's induced sub-hypergraph, but its value
is 2 rather than 1. -/
theorem baseline_single_edge_count_is_two_not_one :
    baseline_count Hone3 3 =
      Except.ok
        [(canonical_form_hypergraph
            (Hone3.induced_subhypergraph ({0, 1, 2} : Finset ℕ)), 2)] ∧
    (2 : ℕ) ≠ 1 := by
  refine ⟨by decide, by decide⟩

/-- C8: refuted on the code.  The direct size-3 phase applies its counting
step to every size-3 hyperedge occurrence without consulting the visited
set: feeding the second occurrence of the duplicated hyperedge to the phase
step changes the mapping from count 1 to count 2 instead of leaving it
unchanged. -/
theorem direct_phase_counts_duplicate_edge_again :
    eff3_direct_step Hdup3
        ([("[[0, 1, 2], [0, 1, 2]]", 1)], {({0, 1, 2} : Finset ℕ)})
        ({0, 1, 2} : Finset ℕ) =
      ([("[[0, 1, 2], [0, 1, 2]]", 2)], {({0, 1, 2} : Finset ℕ)}) ∧
    eff3_direct_phase Hdup3 =
      ([("[[0, 1, 2], [0, 1, 2]]", 2)], {({0, 1, 2} : Finset ℕ)}) ∧
    efficient_count_order3 Hdup3 = [("[[0, 1, 2], [0, 1, 2]]", 2)] := by
  refine ⟨by decide, by decide, by decide⟩

/-- C7: the `k not in (3, 4)` validation is the only failure mode of
`baseline_count`: the call returns a mapping exactly when `k` is 3 or 4, and
otherwise fails with the invalid-argument error before any work. -/
theorem baseline_count_error_iff (H : Hypergraph) (k : ℕ) :
    ((∃ M, baseline_count H k = Except.ok M) ↔ (k = 3 ∨ k = 4)) ∧
    (¬ (k = 3 ∨ k = 4) →
      baseline_count H k = Except.error "k must be 3 or 4") := by
  unfold baseline_count
  by_cases h : k = 3 ∨ k = 4 <;> simp [h]

/-- Witness for C7 at `k = 5`: the invalid-argument error is returned. -/
theorem baseline_count_error_iff_witness :
    baseline_count Hone3 5 = Except.error "k must be 3 or 4" :=
  (baseline_count_error_iff Hone3 5).2 (by decide)

theorem foldr_nbrs_empty (v : ℕ) (l : List (Finset ℕ))
    (hsmall : ∀ e ∈ l, e.card ≤ 1) :
    l.foldr (fun e acc => if v ∈ e then acc ∪ e.erase v else acc) ∅ = ∅ := by
  induction l with
  | nil => rfl
  | cons e t ih =>
    have ht : ∀ e' ∈ t, e'.card ≤ 1 := fun e' he' => hsmall e' (List.mem_cons_of_mem _ he')
    simp only [List.foldr_cons, ih ht]
    by_cases hv : v ∈ e
    · have hcard : e.card = 1 := le_antisymm (hsmall e (List.mem_cons_self _ _))
        (Finset.card_pos.mpr ⟨v, hv⟩)

      obtain ⟨a, ha⟩ := Finset.card_eq_one.mp hcard
      subst ha
      have : v = a := Finset.mem_singleton.mp hv
      subst this
      simp
    · simp [hv]

theorem projection_nbrs_empty (H : Hypergraph)
    (hsmall : ∀ e ∈ H.edges, e.card ≤ 1) (v : ℕ) :
    H.projection_2_section.nbrs v = ∅ :=
  foldr_nbrs_empty v H.edges hsmall

theorem flatMap_eq_nil {α β : Type} (l : List α) (f : α → List β)
    (h : ∀ a ∈ l, f a = []) : l.flatMap f = [] := by
  induction l with
  | nil => rfl
  | cons a t ih =>
    simp only [List.flatMap_cons, h a (List.mem_cons_self _ _), List.nil_append]
    exact ih fun a ha => h a (List.mem_cons_of_mem _ ha)

/-- When the projection has no adjacency at all, the ESU enumerator emits
nothing for any `k ≥ 2`: every start vertex gets an empty extension set. -/
theorem esu_nil_of_nbrs_empty (G : PyGraph) (k : ℕ) (hk : 2 ≤ k)
    (hn : ∀ v, G.nbrs v = ∅) :
    esu_enumerate_connected_subgraphs G k = [] := by
  unfold esu_enumerate_connected_subgraphs
  refine flatMap_eq_nil _ _ fun v _ => ?_
  obtain ⟨d, hd⟩ : ∃ d, k - 1 = d + 1 := ⟨k - 2, by omega⟩
  rw [hn v, hd]
  rfl

/-- C9: the empty hypergraph yields the empty mapping for both valid orders,
and so does every hypergraph whose hyperedges all have fewer than 2
vertices (its projection has no edges, so the enumeration is empty). -/
theorem baseline_count_empty_on_trivial_hypergraphs :
    (∀ k, k = 3 ∨ k = 4 → baseline_count (ofEdgeList []) k = Except.ok []) ∧
    (∀ H : Hypergraph, (∀ e ∈ H.edges, e.card ≤ 1) → ∀ k, k = 3 ∨ k = 4 →
      baseline_count H k = Except.ok []) := by
  constructor
  · rintro k (rfl | rfl) <;> decide
  · intro H hsmall k hk
    unfold baseline_count
    rw [if_pos hk,
      esu_nil_of_nbrs_empty _ k (by rcases hk with rfl | rfl <;> omega)
        (projection_nbrs_empty H hsmall)]
    rfl

/-- Witness for C9: a hypergraph of two singleton edges yields the empty
mapping at `k = 3`. -/
theorem baseline_count_empty_on_trivial_hypergraphs_witness :
    baseline_count (ofEdgeList [({5} : Finset ℕ), {7}]) 3 = Except.ok [] :=
  baseline_count_empty_on_trivial_hypergraphs.2
    (ofEdgeList [({5} : Finset ℕ), {7}]) (by decide) 3 (Or.inl rfl)

theorem foldr_union_init (l : List (Finset ℕ)) (a : Finset ℕ) :
    l.foldr (· ∪ ·) a = unionEdges l ∪ a := by
  induction l with
  | nil =>
    rw [List.foldr_nil, show unionEdges [] = ∅ from rfl, Finset.empty_union]
  | cons e t ih =>
    rw [List.foldr_cons, ih, show unionEdges (e :: t) = e ∪ unionEdges t from rfl,
      Finset.union_assoc]

theorem unionEdges_append_singleton (l : List (Finset ℕ)) (e : Finset ℕ) :
    unionEdges (l ++ [e]) = unionEdges l ∪ e := by
  rw [show unionEdges (l ++ [e]) = (l ++ [e]).foldr (· ∪ ·) ∅ from rfl,
    List.foldr_append, show ([e].foldr (· ∪ ·) ∅ : Finset ℕ) = e ∪ ∅ from rfl,
    Finset.union_empty, foldr_union_init]

theorem mem_unionEdges {v : ℕ} {l : List (Finset ℕ)} :
    v ∈ unionEdges l ↔ ∃ e ∈ l, v ∈ e := by
  induction l with
  | nil => simp [unionEdges]
  | cons e t ih =>
    simp only [unionEdges, List.foldr_cons, Finset.mem_union, List.mem_cons]
    rw [show t.foldr (· ∪ ·) ∅ = unionEdges t from rfl]
    rw [ih]
    constructor
    · rintro (hv | ⟨e', he', hv⟩)
      · exact ⟨e, Or.inl rfl, hv⟩
      · exact ⟨e', Or.inr he', hv⟩
    · rintro ⟨e', (rfl | he'), hv⟩
      · exact Or.inl hv
      · exact Or.inr ⟨e', he', hv⟩

theorem wf_add_edge {H : Hypergraph} (hw : Wf H) (e : Finset ℕ) :
    Wf (H.add_edge e) := by
  unfold Hypergraph.add_edge
  by_cases he : e = ∅
  · simpa [he]
  · refine ⟨?_, ?_⟩
    · intro e' he'
      simp only [he, if_false, List.mem_append, List.mem_singleton] at he'
      rcases he' with he' | rfl
      · exact hw.1 e' he'
      · exact he
    · simp [he, unionEdges_append_singleton, hw.2]

theorem wf_foldl_add_edge (es : List (Finset ℕ)) :
    ∀ H : Hypergraph, Wf H → Wf (es.foldl Hypergraph.add_edge H) := by
  induction es with
  | nil => exact fun H hw => hw
  | cons e t ih => exact fun H hw => ih _ (wf_add_edge hw e)

theorem wf_ofEdgeList (es : List (Finset ℕ)) : Wf (ofEdgeList es) :=
  wf_foldl_add_edge es ⟨[], ∅⟩ ⟨by simp, rfl⟩

theorem edges_foldl_add_edge (es : List (Finset ℕ)) (H : Hypergraph) :
    (es.foldl Hypergraph.add_edge H).edges =
      H.edges ++ es.filter (fun e => ¬ e = ∅) := by
  induction es generalizing H with
  | nil => simp
  | cons e t ih =>
    by_cases he : e = ∅
    · simp [List.foldl_cons, ih, Hypergraph.add_edge, he]
    · simp [List.foldl_cons, ih, Hypergraph.add_edge, he]

theorem ofEdgeList_edges (es : List (Finset ℕ)) :
    (ofEdgeList es).edges = es.filter (fun e => ¬ e = ∅) := by
  simpa [ofEdgeList] using edges_foldl_add_edge es ⟨[], ∅⟩

theorem mem_induced_edges {H : Hypergraph} {V : Finset ℕ} {e' : Finset ℕ} :
    e' ∈ (H.induced_subhypergraph V).edges ↔
      e' ≠ ∅ ∧ ∃ e ∈ H.edges, e ∩ V = e' := by
  unfold Hypergraph.induced_subhypergraph
  rw [ofEdgeList_edges, List.mem_filter]
  simp only [List.mem_filterMap, decide_eq_true_eq]
  constructor
  · rintro ⟨⟨e, he, hf⟩, hne⟩
    by_cases h0 : e ∩ V = ∅
    · simp [h0] at hf
    · simp only [h0, if_false, Option.some.injEq] at hf
      exact ⟨by simpa using hne, e, he, hf⟩
  · rintro ⟨hne, e, he, rfl⟩
    refine ⟨⟨e, he, by simp [hne]⟩, by simpa using hne⟩

/-- C10: every hypergraph built by the public constructors satisfies the
invariant `Wf` (no empty edge; vertex set exactly the union of the edges),
`Wf` hypergraphs have no isolated vertices, and a vertex survives
`induced_subhypergraph(V)` exactly when it lies in `V` and in some original
hyperedge (so every vertex of `V` lying in no trimmed edge is dropped). -/
theorem vertices_eq_union_of_edges :
    (∀ es, Wf (ofEdgeList es)) ∧
    (∀ (H : Hypergraph) (e : Finset ℕ), Wf H → Wf (H.add_edge e)) ∧
    (∀ (H : Hypergraph) (V : Finset ℕ), Wf (H.induced_subhypergraph V)) ∧
    (∀ H : Hypergraph, Wf H → ∀ v ∈ H.vertices, ∃ e ∈ H.edges, v ∈ e) ∧
    (∀ (H : Hypergraph) (V : Finset ℕ) (v : ℕ),
      v ∈ (H.induced_subhypergraph V).vertices ↔
        v ∈ V ∧ ∃ e ∈ H.edges, v ∈ e) := by
  refine ⟨wf_ofEdgeList, fun H e hw => wf_add_edge hw e,
    fun H V => wf_ofEdgeList _, ?_, ?_⟩
  · intro H hw v hv
    rw [hw.2] at hv
    exact mem_unionEdges.mp hv
  · intro H V v
    have hw : Wf (H.induced_subhypergraph V) := wf_ofEdgeList _
    rw [hw.2, mem_unionEdges]
    constructor
    · rintro ⟨e', he', hv⟩
      obtain ⟨-, e, he, rfl⟩ := mem_induced_edges.mp he'
      rw [Finset.mem_inter] at hv
      exact ⟨hv.2, e, he, hv.1⟩
    · rintro ⟨hvV, e, he, hv⟩
      have hne : e ∩ V ≠ ∅ := by
        intro h0
        have : v ∈ e ∩ V := Finset.mem_inter.mpr ⟨hv, hvV⟩
        simp [h0] at this
      exact ⟨e ∩ V, mem_induced_edges.mpr ⟨hne, e, he, rfl⟩,
        Finset.mem_inter.mpr ⟨hv, hvV⟩⟩

/-- Witness for C10: the invariant holds after appending an edge to a
concrete constructed hypergraph. -/
theorem vertices_eq_union_of_edges_witness :
    Wf (Hone3.add_edge {4, 5}) :=
  vertices_eq_union_of_edges.2.1 Hone3 {4, 5} (by decide)

theorem sumValues_bump (M : List (String × ℕ)) (c : String) :
    sumValues (bump M c) = sumValues M + 1 := by
  induction M with
  | nil => rfl
  | cons p t ih =>
    obtain ⟨k, v⟩ := p
    by_cases hk : k = c
    · simp [bump, hk, sumValues]
      omega
    · simp only [bump, hk, if_false, sumValues, List.map_cons, List.sum_cons] at ih ⊢
      omega

theorem eff3_direct_foldl_sum (H : Hypergraph) (l : List (Finset ℕ)) :
    ∀ acc : List (String × ℕ) × Finset (Finset ℕ),
      sumValues (l.foldl (eff3_direct_step H) acc).1 =
        sumValues acc.1 + (l.filter fun e => e.card = 3).length := by
  induction l with
  | nil => simp
  | cons e t ih =>
    intro acc
    by_cases hc : e.card = 3
    · simp [List.foldl_cons, eff3_direct_step, hc, ih, sumValues_bump]
      omega
    · simp [List.foldl_cons, eff3_direct_step, hc, ih]

theorem eff4_direct_foldl_sum (H : Hypergraph) (l : List (Finset ℕ)) :
    ∀ acc : List (String × ℕ) × Finset (Finset ℕ),
      sumValues (l.foldl (eff4_direct_step H) acc).1 =
        sumValues acc.1 + (l.filter fun e => e.card = 4).length := by
  induction l with
  | nil => simp
  | cons e t ih =>
    intro acc
    by_cases hc : e.card = 4
    · simp [List.foldl_cons, eff4_direct_step, hc, ih, sumValues_bump]
      omega
    · simp [List.foldl_cons, eff4_direct_step, hc, ih]

/-- C8 (amended): the direct size-k phases count every size-k hyperedge
occurrence, duplicates included: the phase's counts sum to the number of
size-k entries of the edge list, with no deduplication by vertex set. -/
theorem direct_phase_counts_every_occurrence :
    (∀ H : Hypergraph, sumValues (eff3_direct_phase H).1 =
      (H.edges.filter fun e => e.card = 3).length) ∧
    (∀ H : Hypergraph, sumValues (eff4_direct_phase H).1 =
      (H.edges.filter fun e => e.card = 4).length) :=
  ⟨fun H => by
      simpa [eff3_direct_phase, sumValues] using eff3_direct_foldl_sum H H.edges ([], ∅),
   fun H => by
      simpa [eff4_direct_phase, sumValues] using eff4_direct_foldl_sum H H.edges ([], ∅)⟩

theorem msort_coe (m : Multiset ℕ) :
    ((Quot.liftOn m (fun l => l.insertionSort (· ≤ ·))
        fun _ _ h => insertionSort_perm_eq h : List ℕ) : Multiset ℕ) = m := by
  refine Quotient.inductionOn m fun l => ?_
  exact Quot.sound (List.perm_insertionSort _ l)

theorem finSorted_coe (s : Finset ℕ) : ((finSorted s : List ℕ) : Multiset ℕ) = s.val :=
  msort_coe s.val

theorem strSorted_coe (s : Finset ℕ) : ((strSorted s : List ℕ) : Multiset ℕ) = s.val := by
  rw [show ((strSorted s : List ℕ) : Multiset ℕ) = ((finSorted s : List ℕ) : Multiset ℕ) from
    Quot.sound (List.perm_insertionSort _ _), finSorted_coe]

theorem mem_finSorted {s : Finset ℕ} {a : ℕ} : a ∈ finSorted s ↔ a ∈ s := by
  rw [← Multiset.mem_coe, finSorted_coe]
  exact Iff.rfl

theorem finSorted_nodup (s : Finset ℕ) : (finSorted s).Nodup := by
  rw [← Multiset.coe_nodup, finSorted_coe]
  exact s.nodup

theorem mem_strSorted {s : Finset ℕ} {a : ℕ} : a ∈ strSorted s ↔ a ∈ s := by
  rw [← Multiset.mem_coe, strSorted_coe]
  exact Iff.rfl

theorem strSorted_nodup (s : Finset ℕ) : (strSorted s).Nodup := by
  rw [← Multiset.coe_nodup, strSorted_coe]
  exact s.nodup

theorem strSorted_length (s : Finset ℕ) : (strSorted s).length = s.card := by
  rw [← Multiset.coe_card, strSorted_coe]
  rfl

theorem mem_insertsOf {a : ℕ} {l x : List ℕ} (h : x ∈ insertsOf a l) :
    x.Perm (a :: l) := by
  induction l generalizing x with
  | nil =>
    simp only [insertsOf, List.mem_singleton] at h
    subst h
    exact List.Perm.refl _
  | cons b bs ih =>
    simp only [insertsOf, List.mem_cons, List.mem_map] at h
    rcases h with rfl | ⟨y, hy, rfl⟩
    · exact List.Perm.refl _
    · exact ((ih hy).cons b).trans (List.Perm.swap a b bs)

theorem insertsOf_mem (a : ℕ) (l₁ l₂ : List ℕ) :
    (l₁ ++ a :: l₂) ∈ insertsOf a (l₁ ++ l₂) := by
  induction l₁ with
  | nil => cases l₂ <;> simp [insertsOf]
  | cons b t ih =>
    rcases t ++ l₂ with - | -
    · simp only [List.cons_append, insertsOf, List.mem_cons, List.mem_map]
      exact Or.inr ⟨t ++ a :: l₂, ih, rfl⟩
    · simp only [List.cons_append, insertsOf, List.mem_cons, List.mem_map]
      exact Or.inr ⟨t ++ a :: l₂, ih, rfl⟩

theorem mem_permsOf {l p : List ℕ} : p ∈ permsOf l ↔ p.Perm l := by
  induction l generalizing p with
  | nil =>
    simp only [permsOf, List.mem_singleton]
    constructor
    · rintro rfl; exact List.Perm.refl _
    · intro h; exact h.eq_nil
  | cons a as ih =>
    simp only [permsOf, List.mem_flatMap]
    constructor
    · rintro ⟨q, hq, hins⟩
      exact (mem_insertsOf hins).trans ((ih.mp hq).cons a)
    · intro h
      have ha : a ∈ p := h.mem_iff.mpr (List.mem_cons_self a as)
      obtain ⟨p₁, p₂, rfl⟩ := List.append_of_mem ha
      have hrest : (p₁ ++ p₂).Perm as :=
        (List.perm_middle.symm.trans h).cons_inv
      exact ⟨p₁ ++ p₂, ih.mpr hrest, insertsOf_mem a p₁ p₂⟩

theorem bestFold_cons (x : List (List ℕ)) (c : List (List (List ℕ))) :
    bestFold (x :: c) = some (foldMin x c) := by
  show List.foldl _ (some x) c = _
  induction c generalizing x with
  | nil => rfl
  | cons y t ih =>
    simp only [List.foldl_cons, foldMin]
    rw [show (if y < x then some y else some x) =
      some (if y < x then y else x) from by split <;> rfl]
    exact ih _

theorem foldMin_mem (b : List (List ℕ)) (c : List (List (List ℕ))) :
    foldMin b c ∈ b :: c := by
  induction c generalizing b with
  | nil => exact List.mem_singleton.mpr rfl
  | cons y t ih =>
    have := ih (if y < b then y else b)
    simp only [foldMin, List.foldl_cons] at *
    rcases List.mem_cons.mp this with h | h
    · rw [h]
      split
      · exact List.mem_cons_of_mem _ (List.mem_cons_self _ _)
      · exact List.mem_cons_self _ _
    · exact List.mem_cons_of_mem _ (List.mem_cons_of_mem _ h)

theorem foldMin_le (b : List (List ℕ)) (c : List (List (List ℕ))) :
    ∀ y ∈ b :: c, foldMin b c ≤ y := by
  induction c generalizing b with
  | nil =>
    intro y hy
    rw [List.mem_singleton.mp hy]
    exact le_refl _
  | cons z t ih =>
    intro y hy
    have hstep : foldMin b (z :: t) = foldMin (if z < b then z else b) t := rfl
    have hminb : (if z < b then z else b) ≤ b := by
      split
      · exact le_of_lt (by assumption)
      · exact le_refl _
    have hminz : (if z < b then z else b) ≤ z := by
      split
      · exact le_refl _
      · exact le_of_not_lt (by assumption)
    have hle := ih (if z < b then z else b)
    rcases List.mem_cons.mp hy with rfl | hy'
    · exact hstep ▸ le_trans (hle _ (List.mem_cons_self _ _)) hminb
    · rcases List.mem_cons.mp hy' with rfl | hy''
      · exact hstep ▸ le_trans (hle _ (List.mem_cons_self _ _)) hminz
      · exact hstep ▸ hle _ (List.mem_cons_of_mem _ hy'')

theorem bestFold_eq_of_mem_iff {c c' : List (List (List ℕ))}
    (h : ∀ x, x ∈ c ↔ x ∈ c') (hc : c ≠ []) (hc' : c' ≠ []) :
    bestFold c = bestFold c' := by
  obtain ⟨x, t, rfl⟩ := List.exists_cons_of_ne_nil hc
  obtain ⟨x', t', rfl⟩ := List.exists_cons_of_ne_nil hc'
  rw [bestFold_cons, bestFold_cons]
  have h1 : foldMin x t ∈ x' :: t' := (h _).mp (foldMin_mem x t)
  have h2 : foldMin x' t' ∈ x :: t := (h _).mpr (foldMin_mem x' t')
  exact congrArg some
    (le_antisymm (foldMin_le x t _ h2) (foldMin_le x' t' _ h1))

/-- The canonical-labeling loop restated through `bestFold` and `cands`. -/
theorem canonical_form_eq (H : Hypergraph) :
    canonical_form_hypergraph H =
      if (strSorted H.vertices).length = 0 then "()"
      else
        match bestFold (cands (strSorted H.vertices).length (indexEdges H)) with
        | some b => jsonDumps b
        | none => jsonDumps [] := by
  unfold canonical_form_hypergraph bestFold cands
  rw [List.foldl_map]
  rfl

theorem range_map_pgetD (p : List ℕ) :
    (List.range p.length).map (pgetD p) = p := by
  refine List.ext_getElem (by simp) fun i h1 h2 => ?_
  simp only [List.getElem_map, List.getElem_range]
  exact List.getD_eq_getElem p 0 h2

theorem applyFun_map (g τg : ℕ → ℕ) (E : List (List ℕ)) :
    applyFun g (E.map fun l => (l.map τg).insertionSort (· ≤ ·)) =
      applyFun (fun i => g (τg i)) E := by
  unfold applyFun
  rw [List.map_map]
  congr 1
  refine List.map_congr_left fun l _ => ?_
  simp only [Function.comp_apply]
  have h1 : (((l.map τg).insertionSort (· ≤ ·)).map g).Perm ((l.map τg).map g) :=
    (List.perm_insertionSort _ _).map g
  rw [insertionSort_perm_eq h1, List.map_map]
  rfl

theorem applyFun_congr {g g' : ℕ → ℕ} {E : List (List ℕ)}
    (h : ∀ l ∈ E, ∀ i ∈ l, g i = g' i) : applyFun g E = applyFun g' E := by
  unfold applyFun
  congr 1
  refine List.map_congr_left fun l hl => ?_
  rw [List.map_congr_left fun i hi => h l hl i hi]

theorem tau_entry_lt {τ : List ℕ} {k : ℕ} (hτ : τ.Perm (List.range k))
    {i : ℕ} (hi : i ∈ τ) : i < k := by
  have := hτ.mem_iff.mp hi
  exact List.mem_range.mp this

theorem tau_length {τ : List ℕ} {k : ℕ} (hτ : τ.Perm (List.range k)) :
    τ.length = k := by
  rw [hτ.length_eq, List.length_range]

theorem tau_nodup {τ : List ℕ} {k : ℕ} (hτ : τ.Perm (List.range k)) :
    τ.Nodup :=
  hτ.symm.nodup (List.nodup_range k)

/-- A nodup list of length `k` with entries below `k` is a permutation of
`range k`. -/
theorem perm_range_of_nodup_lt {p : List ℕ} {k : ℕ} (hn : p.Nodup)
    (hlen : p.length = k) (hlt : ∀ i ∈ p, i < k) :
    p.Perm (List.range k) := by
  refine (hn.subperm fun i hi => List.mem_range.mpr (hlt i hi)).perm_of_length_le ?_
  rw [hlen, List.length_range]

/-- Candidate transfer: when `E'` arises from `E` by rewriting every edge
through an index permutation `τ` (and re-sorting), the canonical-labeling
loops over `E` and `E'` range over the same candidate collections. -/
theorem cands_mem_transfer {k : ℕ} {τ : List ℕ} (hτ : τ.Perm (List.range k))
    {E E' : List (List ℕ)} (hE : ∀ l ∈ E, ∀ i ∈ l, i < k)
    (hrel : E' = E.map fun l => (l.map (pgetD τ)).insertionSort (· ≤ ·)) :
    ∀ v, v ∈ cands k E' ↔ v ∈ cands k E := by
  have hτlen : τ.length = k := tau_length hτ
  intro v
  constructor
  · rintro hv
    obtain ⟨p, hp, rfl⟩ := List.mem_map.mp hv
    have hperm : p.Perm (List.range k) := mem_permsOf.mp hp
    have hplen : p.length = k := tau_length hperm
    set q := τ.map (pgetD p) with hq
    have hqk : q.Perm (List.range k) := by
      have h1 : q.Perm ((List.range k).map (pgetD p)) := hτ.map (pgetD p)
      rw [show List.range k = List.range p.length from by rw [hplen]] at h1
      rw [range_map_pgetD] at h1
      exact h1.trans hperm
    refine List.mem_map.mpr ⟨q, mem_permsOf.mpr hqk, ?_⟩
    rw [hrel, applyFun_map]
    refine (applyFun_congr fun l hl i hi => ?_).symm
    have hik : i < k := hE l hl i hi
    have hiq : i < q.length := by rw [tau_length hqk]; exact hik
    have hiτ : i < τ.length := by omega
    show pgetD p (pgetD τ i) = pgetD q i
    unfold pgetD
    rw [List.getD_eq_getElem q 0 hiq, List.getD_eq_getElem τ 0 hiτ]
    simp only [hq, List.getElem_map]
    rfl
  · rintro hv
    obtain ⟨q, hq, rfl⟩ := List.mem_map.mp hv
    have hqperm : q.Perm (List.range k) := mem_permsOf.mp hq
    have hqlen : q.length = k := tau_length hqperm
    set p := (List.range k).map fun i => pgetD q (τ.indexOf i) with hp
    have hplen : p.length = k := by simp [hp]
    have hpnodup : p.Nodup := by
      refine List.Nodup.map_on ?_ (List.nodup_range k)
      intro i hi j hj hij
      have hiτ : i ∈ τ := hτ.mem_iff.mpr hi
      have hjτ : j ∈ τ := hτ.mem_iff.mpr hj
      have hiidx : τ.indexOf i < τ.length := List.indexOf_lt_length.mpr hiτ
      have hjidx : τ.indexOf j < τ.length := List.indexOf_lt_length.mpr hjτ
      have hiq2 : τ.indexOf i < q.length := by omega
      have hjq2 : τ.indexOf j < q.length := by omega
      unfold pgetD at hij
      rw [List.getD_eq_getElem q 0 hiq2, List.getD_eq_getElem q 0 hjq2] at hij
      have hidx : τ.indexOf i = τ.indexOf j :=
        (List.Nodup.getElem_inj_iff (tau_nodup hqperm)).mp hij
      have h1 : τ.getD (τ.indexOf i) 0 = i := by
        rw [List.getD_eq_getElem τ 0 hiidx]
        exact List.getElem_indexOf hiidx
      have h2 : τ.getD (τ.indexOf j) 0 = j := by
        rw [List.getD_eq_getElem τ 0 hjidx]
        exact List.getElem_indexOf hjidx
      rw [← h1, ← h2, hidx]
    have hplt : ∀ i ∈ p, i < k := by
      intro i hi
      obtain ⟨j, hj, rfl⟩ := List.mem_map.mp hi
      have hjτ : j ∈ τ := hτ.mem_iff.mpr hj
      have hjidx : τ.indexOf j < τ.length := List.indexOf_lt_length.mpr hjτ
      have hjq2 : τ.indexOf j < q.length := by omega
      unfold pgetD
      rw [List.getD_eq_getElem q 0 hjq2]
      exact tau_entry_lt hqperm (List.getElem_mem _)
    have hpperm : p.Perm (List.range k) := perm_range_of_nodup_lt hpnodup hplen hplt
    refine List.mem_map.mpr ⟨p, mem_permsOf.mpr hpperm, ?_⟩
    rw [hrel, applyFun_map]
    refine applyFun_congr fun l hl i hi => ?_
    have hik : i < k := hE l hl i hi
    have hiτ : i < τ.length := by omega
    show pgetD p (pgetD τ i) = pgetD q i
    have hτi_mem : τ[i] ∈ τ := List.getElem_mem _
    have hτik : τ[i] < k := tau_entry_lt hτ hτi_mem
    have hτip : τ[i] < p.length := by omega
    unfold pgetD
    rw [List.getD_eq_getElem τ 0 hiτ, List.getD_eq_getElem p 0 hτip]
    simp only [hp, List.getElem_map, List.getElem_range]
    rw [List.indexOf_getElem (tau_nodup hτ) i hiτ]
    rfl

theorem finSorted_length (s : Finset ℕ) : (finSorted s).length = s.card := by
  rw [← Multiset.coe_card, finSorted_coe]
  rfl

theorem edges_subset_vertices {H : Hypergraph} (hw : Wf H) {e : Finset ℕ}
    (he : e ∈ H.edges) : ∀ v ∈ e, v ∈ H.vertices := by
  intro v hv
  rw [hw.2]
  exact mem_unionEdges.mpr ⟨e, he, hv⟩

theorem relabel_edges {H : Hypergraph} (hw : Wf H) (σ : ℕ → ℕ) :
    (relabel H σ).edges = H.edges.map (Finset.image σ) := by
  unfold relabel
  rw [ofEdgeList_edges]
  refine List.filter_eq_self.mpr fun e' he' => ?_
  obtain ⟨e, he, rfl⟩ := List.mem_map.mp he'
  simp only [decide_eq_true_eq]
  exact Finset.nonempty_iff_ne_empty.mp
    (Finset.image_nonempty.mpr (Finset.nonempty_iff_ne_empty.mpr (hw.1 e he)))

theorem unionEdges_map_image (σ : ℕ → ℕ) (l : List (Finset ℕ)) :
    unionEdges (l.map (Finset.image σ)) = (unionEdges l).image σ := by
  induction l with
  | nil =>
    rw [List.map_nil, show unionEdges [] = ∅ from rfl, Finset.image_empty]
  | cons e t ih =>
    rw [List.map_cons,
      show unionEdges (Finset.image σ e :: t.map (Finset.image σ)) =
        Finset.image σ e ∪ unionEdges (t.map (Finset.image σ)) from rfl,
      ih, show unionEdges (e :: t) = e ∪ unionEdges t from rfl,
      Finset.image_union]

theorem relabel_vertices {H : Hypergraph} (hw : Wf H) (σ : ℕ → ℕ) :
    (relabel H σ).vertices = H.vertices.image σ := by
  have h1 : Wf (relabel H σ) := wf_ofEdgeList _
  rw [h1.2, relabel_edges hw, unionEdges_map_image, hw.2]

theorem indexEdges_entries_lt {H : Hypergraph} (hw : Wf H) :
    ∀ l ∈ indexEdges H, ∀ i ∈ l, i < (strSorted H.vertices).length := by
  intro l hl i hi
  obtain ⟨e, he, rfl⟩ := List.mem_map.mp hl
  have hi' : i ∈ (finSorted e).map fun x => (strSorted H.vertices).indexOf x :=
    ((List.perm_insertionSort _ _).mem_iff).mp hi
  obtain ⟨x, hx, rfl⟩ := List.mem_map.mp hi'
  have hxv : x ∈ H.vertices :=
    edges_subset_vertices hw he x (mem_finSorted.mp hx)
  exact List.indexOf_lt_length.mpr (mem_strSorted.mpr hxv)

theorem tauList_perm_range {H : Hypergraph} {σ : ℕ → ℕ}
    (hinj : Set.InjOn σ ↑H.vertices) :
    (tauList H σ).Perm (List.range (strSorted H.vertices).length) := by
  have hV'len : (strSorted (H.vertices.image σ)).length =
      (strSorted H.vertices).length := by
    rw [strSorted_length, strSorted_length, Finset.card_image_of_injOn hinj]
  refine perm_range_of_nodup_lt ?_ (by simp [tauList]) ?_
  · refine List.Nodup.map_on ?_ (strSorted_nodup _)
    intro x hx y hy hxy
    have hσx : σ x ∈ strSorted (H.vertices.image σ) :=
      mem_strSorted.mpr (Finset.mem_image_of_mem σ (mem_strSorted.mp hx))
    have hσy : σ y ∈ strSorted (H.vertices.image σ) :=
      mem_strSorted.mpr (Finset.mem_image_of_mem σ (mem_strSorted.mp hy))
    have h1 := List.indexOf_lt_length.mpr hσx
    have h2 := List.indexOf_lt_length.mpr hσy
    have e1 : (strSorted (H.vertices.image σ)).getD
        ((strSorted (H.vertices.image σ)).indexOf (σ x)) 0 = σ x := by
      rw [List.getD_eq_getElem _ 0 h1]
      exact List.getElem_indexOf h1
    have e2 : (strSorted (H.vertices.image σ)).getD
        ((strSorted (H.vertices.image σ)).indexOf (σ y)) 0 = σ y := by
      rw [List.getD_eq_getElem _ 0 h2]
      exact List.getElem_indexOf h2
    have hσ : σ x = σ y := by rw [← e1, ← e2, hxy]
    exact hinj (Finset.mem_coe.mpr (mem_strSorted.mp hx))
      (Finset.mem_coe.mpr (mem_strSorted.mp hy)) hσ
  · intro i hi
    obtain ⟨x, hx, rfl⟩ := List.mem_map.mp hi
    have hσx : σ x ∈ strSorted (H.vertices.image σ) :=
      mem_strSorted.mpr (Finset.mem_image_of_mem σ (mem_strSorted.mp hx))
    have := List.indexOf_lt_length.mpr hσx
    rwa [hV'len] at this

theorem finSorted_image_perm {σ : ℕ → ℕ} {e s : Finset ℕ}
    (hes : ∀ v ∈ e, v ∈ s) (hinj : Set.InjOn σ ↑s) :
    (finSorted (Finset.image σ e)).Perm ((finSorted e).map σ) := by
  have hinj' : Set.InjOn σ ↑e := hinj.mono fun v hv => Finset.mem_coe.mpr
    (hes v (Finset.mem_coe.mp hv))
  have hnodup : ((finSorted e).map σ).Nodup := by
    refine List.Nodup.map_on ?_ (finSorted_nodup e)
    intro x hx y hy hxy
    exact hinj' (Finset.mem_coe.mpr (mem_finSorted.mp hx))
      (Finset.mem_coe.mpr (mem_finSorted.mp hy)) hxy
  have hsub : finSorted (Finset.image σ e) ⊆ (finSorted e).map σ := by
    intro y hy
    obtain ⟨x, hx, rfl⟩ := Finset.mem_image.mp (mem_finSorted.mp hy)
    exact List.mem_map.mpr ⟨x, mem_finSorted.mpr hx, rfl⟩
  refine ((finSorted_nodup _).subperm hsub).perm_of_length_le ?_
  rw [List.length_map, finSorted_length, finSorted_length,
    Finset.card_image_of_injOn hinj']

theorem indexEdges_relabel {H : Hypergraph} {σ : ℕ → ℕ} (hw : Wf H)
    (hinj : Set.InjOn σ ↑H.vertices) :
    indexEdges (relabel H σ) =
      (indexEdges H).map fun l =>
        (l.map (pgetD (tauList H σ))).insertionSort (· ≤ ·) := by
  unfold indexEdges
  rw [relabel_edges hw, relabel_vertices hw, List.map_map, List.map_map]
  refine List.map_congr_left fun e he => ?_
  simp only [Function.comp_apply]
  have hes : ∀ v ∈ e, v ∈ H.vertices := edges_subset_vertices hw he
  have h1 : (finSorted (Finset.image σ e)).Perm ((finSorted e).map σ) :=
    finSorted_image_perm hes hinj
  rw [insertionSort_perm_eq
    (h1.map fun y => (strSorted (H.vertices.image σ)).indexOf y), List.map_map]
  have h2 : ((((finSorted e).map fun x =>
        (strSorted H.vertices).indexOf x).insertionSort (· ≤ ·)).map
          (pgetD (tauList H σ))).Perm
      (((finSorted e).map fun x =>
        (strSorted H.vertices).indexOf x).map (pgetD (tauList H σ))) :=
    (List.perm_insertionSort _ _).map _
  rw [insertionSort_perm_eq h2, List.map_map]
  refine congrArg _ (List.map_congr_left fun x hx => ?_)
  simp only [Function.comp_apply]
  have hxv : x ∈ strSorted H.vertices :=
    mem_strSorted.mpr (hes x (mem_finSorted.mp hx))
  have hxi : (strSorted H.vertices).indexOf x < (strSorted H.vertices).length :=
    List.indexOf_lt_length.mpr hxv
  have hxτ : (strSorted H.vertices).indexOf x < (tauList H σ).length := by
    rw [show (tauList H σ).length = (strSorted H.vertices).length from by
      simp [tauList]]
    exact hxi
  show (strSorted (H.vertices.image σ)).indexOf (σ x) =
    pgetD (tauList H σ) ((strSorted H.vertices).indexOf x)
  unfold pgetD
  rw [List.getD_eq_getElem _ 0 hxτ]
  simp only [tauList, List.getElem_map]
  rw [List.getElem_indexOf hxi]

theorem cands_ne_nil (k : ℕ) (E : List (List ℕ)) : cands k E ≠ [] := by
  intro h
  have hmem : applyFun (pgetD (List.range k)) E ∈ cands k E :=
    List.mem_map.mpr ⟨List.range k, mem_permsOf.mpr (List.Perm.refl _), rfl⟩
  rw [h] at hmem
  exact (List.not_mem_nil _) hmem

/-- C6: for a well-formed hypergraph with at most 4 vertices, the canonical
form is invariant under relabeling the vertices through any map that is
injective on them (in particular under every bijection of the vertex set):
both canonical-labeling loops minimize over the same candidate collections. -/
theorem canonical_form_relabel_invariant (H : Hypergraph) (σ : ℕ → ℕ)
    (hw : Wf H) (_hcard : H.vertices.card ≤ 4) (hinj : Set.InjOn σ ↑H.vertices) :
    canonical_form_hypergraph H = canonical_form_hypergraph (relabel H σ) := by
  rw [canonical_form_eq H, canonical_form_eq (relabel H σ)]
  have hk' : (strSorted (relabel H σ).vertices).length =
      (strSorted H.vertices).length := by
    rw [relabel_vertices hw, strSorted_length, strSorted_length,
      Finset.card_image_of_injOn hinj]
  by_cases hk : (strSorted H.vertices).length = 0
  · rw [if_pos hk, if_pos (by rw [hk']; exact hk)]
  · rw [if_neg hk, if_neg (by rw [hk']; exact hk)]
    have hbf : bestFold (cands (strSorted H.vertices).length
          (indexEdges (relabel H σ))) =
        bestFold (cands (strSorted H.vertices).length (indexEdges H)) :=
      bestFold_eq_of_mem_iff
        (cands_mem_transfer (tauList_perm_range hinj)
          (indexEdges_entries_lt hw) (indexEdges_relabel hw hinj))
        (cands_ne_nil _ _) (cands_ne_nil _ _)
    rw [hk', hbf]

/-- Witness for C6: relabeling the triangle hypergraph through `n ↦ n + 1`
leaves the canonical form unchanged. -/
theorem canonical_form_relabel_invariant_witness :
    canonical_form_hypergraph Hone3 =
      canonical_form_hypergraph (relabel Hone3 fun n => n + 1) :=
  canonical_form_relabel_invariant Hone3 (fun n => n + 1) (by decide) (by decide)
    fun a _ b _ h => by simpa using h

end HypergraphMotifs
